import Mathlib

set_option maxHeartbeats 1000000
set_option maxRecDepth 4000

/-
Shallow embedding of the copy-mechanism core of the Data2text-Bi-Aspect
repository (files onmt/modules/CopyGenerator.py, onmt/io/TextDataset.py,
onmt/io/BoxField.py).  Tensors over a single token position are embedded as
functions from column index to rational numbers; floating point arithmetic is
idealised as exact rational/real arithmetic.
-/

/-- Reserved unknown token, from onmt.io.DatasetBase. -/
def UNK_WORD : String := "<unk>"

/-- Reserved padding token, from onmt.io.DatasetBase. -/
def PAD_WORD : String := "<pad>"

/--
Per-token probability mass assembled by CopyGeneratorCriterion.__call__
(CopyGenerator.py lines 121-144) before the logarithm is taken.  `scores` is
one row of the extended distribution, `a` the alignment id, `t` the target id,
`offset` the fixed vocabulary size.  Mirrors the source line by line:
out = scores.gather(align + offset) ; out = out * align_not_unk + eps ;
tmp = scores.gather(target) ; then the force_copy / regular branches.
-/
def criterionMass (forceCopy : Bool) (eps : ℚ) (offset : ℕ)
    (scores : ℕ → ℚ) (a t : ℕ) : ℚ :=
  let alignUnk : ℚ := if a = 0 then 1 else 0
  let alignNotUnk : ℚ := if a = 0 then 0 else 1
  let targetUnk : ℚ := if t = 0 then 1 else 0
  let targetNotUnk : ℚ := if t = 0 then 0 else 1
  let out := scores (a + offset) * alignNotUnk + eps
  let tmp := scores t
  if forceCopy then
    out + tmp * alignUnk
  else
    out + tmp * targetNotUnk + tmp * alignUnk * targetUnk

/--
Per-token loss of CopyGeneratorCriterion.__call__ (CopyGenerator.py line 146):
loss = -out.log().mul(target.ne(pad)), i.e. the negated logarithm of the
assembled mass, multiplied by the padding mask.
-/
noncomputable def tokenLoss (forceCopy : Bool) (eps : ℚ) (offset pad : ℕ)
    (scores : ℕ → ℚ) (a t : ℕ) : ℝ :=
  (-Real.log ((criterionMass forceCopy eps offset scores a t : ℚ) : ℝ)) *
    (if t = pad then 0 else 1)

/-- Default epsilon of the criterion (eps=1e-20 in CopyGenerator.py line 115). -/
def criterionEps : ℚ := 1 / 10 ^ 20

/-- Concrete extended-score row used to test the criterion at explicit inputs. -/
def cScores : ℕ → ℚ := fun c =>
  if c = 0 then 1 / 8 else if c = 2 then 1 / 2 else if c = 8 then 3 / 10 else 1 / 100

/-- Concrete score row, fixed-vocabulary unknown column holds 1/2 (offset 5). -/
def fvScoresA : ℕ → ℚ := fun c =>
  if c = 0 then 1 / 2 else if c < 5 then 1 / 50 else 1 / 10

/-- Concrete score row agreeing with fvScoresA on every copy column c ≥ 5 but
differing at the fixed-vocabulary unknown column 0. -/
def fvScoresB : ℕ → ℚ := fun c =>
  if c = 0 then 1 / 4 else if c < 5 then 1 / 50 else 1 / 10

/--
Gated attention of CopyGenerator.forward (CopyGenerator.py lines 97-105).
Positions are indexed by (decoder step t, batch example b), source positions by
s.  In training mode (line 101-102): mul_attn = attn * align_not_unk * ptrs;
in evaluation mode (line 105): mul_attn = attn * p_copy.
-/
def copyGenMulAttn (training : Bool) (attn ptrs : ℕ → ℕ → ℕ → ℚ)
    (pCopy : ℕ → ℕ → ℚ) (align : ℕ → ℕ → ℕ) (t b s : ℕ) : ℚ :=
  if training then
    attn t b s * (if align t b = 0 then 0 else 1) * ptrs t b s
  else
    attn t b s * pCopy t b

/--
Fixed-vocabulary part of CopyGenerator.forward.  `prob` abstracts the softmax
of the linear projection of the hidden state (with the pad logit forced to
-inf); in training mode (line 100) it is gated by align_unk, in evaluation
mode (line 104) it is weighted by 1 - p_copy.
-/
def copyGenOutProb (training : Bool) (prob : ℕ → ℕ → ℕ → ℚ)
    (pCopy : ℕ → ℕ → ℚ) (align : ℕ → ℕ → ℕ) (t b j : ℕ) : ℚ :=
  if training then
    prob t b j * (if align t b = 0 then 1 else 0)
  else
    prob t b j * (1 - pCopy t b)

/--
Copy part of CopyGenerator.forward (lines 107-110): the gated attention is
projected from source-position space into dynamic-vocabulary space by a batched
matrix multiply against src_map (src_map s b c is the indicator that source
position s of example b carries dynamic id c).  `slen` is the source length.
-/
def copyGenCopyProb (training : Bool) (attn ptrs srcMap : ℕ → ℕ → ℕ → ℚ)
    (pCopy : ℕ → ℕ → ℚ) (align : ℕ → ℕ → ℕ) (slen : ℕ) (t b c : ℕ) : ℚ :=
  ∑ s in Finset.range slen,
    copyGenMulAttn training attn ptrs pCopy align t b s * srcMap s b c

/--
Extended distribution returned by CopyGenerator.forward (line 112):
cat([out_prob, copy_prob], 1).  Columns j < vocabSize are the fixed-vocabulary
part, columns vocabSize + c the dynamic-vocabulary part.  The p_copy value
returned alongside is the given pCopy, unchanged.
-/
def copyGenForward (training : Bool) (vocabSize slen : ℕ)
    (prob : ℕ → ℕ → ℕ → ℚ) (pCopy : ℕ → ℕ → ℚ)
    (attn ptrs srcMap : ℕ → ℕ → ℕ → ℚ) (align : ℕ → ℕ → ℕ)
    (t b j : ℕ) : ℚ :=
  if j < vocabSize then
    copyGenOutProb training prob pCopy align t b j
  else
    copyGenCopyProb training attn ptrs srcMap pCopy align slen t b (j - vocabSize)

/-- Concrete softmax-output row used for copy-generator witnesses. -/
def wProb : ℕ → ℕ → ℕ → ℚ := fun _ _ j => if j = 0 then 3 / 4 else 1 / 4

/-- Concrete attention used for copy-generator witnesses. -/
def wAttn : ℕ → ℕ → ℕ → ℚ := fun _ _ s => if s = 0 then 2 / 3 else 1 / 3

/-- Concrete pointer gate used for copy-generator witnesses. -/
def wPtrs : ℕ → ℕ → ℕ → ℚ := fun _ _ s => if s = 0 then 1 else 0

/-- Concrete src_map indicator used for copy-generator witnesses. -/
def wSrcMap : ℕ → ℕ → ℕ → ℚ := fun s _ c => if c = s + 1 then 1 else 0

/-- Concrete alignment used for copy-generator witnesses: align = 1 at decoder
step 0 and align = 0 at decoder step 1. -/
def wAlign : ℕ → ℕ → ℕ := fun t _ => if t = 0 then 1 else 0

/-- Concrete copy-switch probability used for copy-generator witnesses. -/
def wPCopy : ℕ → ℕ → ℚ := fun _ _ => 9 / 10

/-- A second copy-switch probability, differing from wPCopy everywhere. -/
def wPCopy2 : ℕ → ℕ → ℚ := fun _ _ => 1 / 10

/--
Code-point lexicographic comparison on character lists, modelling CPython's
string `<` used by `sorted(counter.items(), key=lambda tup: tup[0])` in
torchtext.vocab.Vocab.
-/
def charsLt : List Char → List Char → Bool
  | [], [] => false
  | [], _ :: _ => true
  | _ :: _, [] => false
  | c :: cs, d :: ds =>
    if c.val < d.val then true
    else if d.val < c.val then false
    else charsLt cs ds

/-- String comparison by code points (CPython order). -/
def strLtB (a b : String) : Bool := charsLt a.data b.data

/-- Duplicate removal, modelling the key set of Counter(src). -/
def uniqueTokens : List String → List String
  | [] => []
  | w :: rest =>
    let u := uniqueTokens rest
    if w ∈ u then u else w :: u

/-- Specials of the per-example dynamic vocabulary (TextDataset.py line 421):
torchtext.vocab.Vocab(Counter(src), specials=[UNK_WORD, PAD_WORD]). -/
def specialTokens : List String := [UNK_WORD, PAD_WORD]

/--
Vocab ordering of torchtext.vocab.Vocab: CPython applies a stable sort by word
(code-point ascending) followed by a stable sort by frequency (descending);
for distinct words this equals one sort by the key (frequency descending, word
ascending), which is what this comparison implements.
-/
def vocabLe (src : List String) (a b : String) : Bool :=
  if src.count b < src.count a then true
  else if src.count a < src.count b then false
  else strLtB a b || (a == b)

/-- Insertion of one word into a sorted word list (model of CPython sorted). -/
def ordInsert (le : String → String → Bool) (a : String) : List String → List String
  | [] => [a]
  | b :: l => if le a b then a :: b :: l else b :: ordInsert le a l

/-- Insertion sort (model of CPython sorted, total for distinct words). -/
def insSort (le : String → String → Bool) : List String → List String
  | [] => []
  | a :: l => ordInsert le a (insSort le l)

/--
itos of the per-example dynamic vocabulary built by TextDataset._dynamic_dict
(TextDataset.py line 421): the two specials first, then the source words
(specials excluded, whose counts torchtext zeroes out) sorted by frequency
descending with ties broken by code-point order.
-/
def dynItos (src : List String) : List String :=
  specialTokens ++
    insSort (vocabLe src) ((uniqueTokens src).filter (fun w => !(specialTokens.contains w)))

/--
stoi of the per-example dynamic vocabulary: a defaultdict returning the
position in itos for known words and the unknown id 0 otherwise.
-/
def dynStoi (src : List String) (w : String) : ℕ :=
  if w ∈ dynItos src then (dynItos src).indexOf w else 0

/--
Alignment vector built by TextDataset._dynamic_dict without a pointer file
(TextDataset.py lines 436-440): mask = [0] + [src_vocab.stoi[w] for w in tgt]
+ [0].
-/
def alignmentVec (src tgt : List String) : List ℕ :=
  [0] ++ tgt.map (dynStoi src) ++ [0]

/-- Maximum comma-group size of a pointer line (TextDataset.py lines 450-456). -/
def maxGroupLen (lineTuples : List (List ℤ)) : ℕ :=
  (lineTuples.map List.length).foldr max 0

/--
One non-trailer row of the pointer table (TextDataset.py lines 458-462): the
row starts as zeros of width maxLen + 1, the group's integers are written
left-aligned, and the final column (index maxLen) receives the group's element
count.
-/
def ptrRow (maxLen : ℕ) (g : List ℤ) : List ℤ :=
  g ++ List.replicate (maxLen - g.length) 0 ++ [(g.length : ℤ)]

/--
Pointer table built by TextDataset._dynamic_dict from one pointer-file line
(TextDataset.py lines 450-465): one row per comma-group, then a row whose first
entry is len(src2) and a row whose first entry is len(tgt2), all of width
maxGroupLen + 1.
-/
def buildPtrs (lineTuples : List (List ℤ)) (srcLen tgtLen : ℕ) : List (List ℤ) :=
  lineTuples.map (ptrRow (maxGroupLen lineTuples)) ++
    [(srcLen : ℤ) :: List.replicate (maxGroupLen lineTuples) 0] ++
    [(tgtLen : ℤ) :: List.replicate (maxGroupLen lineTuples) 0]

/--
Filter predicate of TextDataset.__init__ (TextDataset.py lines 122-126):
0 < len(src1) <= src_seq_length and 0 < len(tgt1) <= tgt_seq_length and
(pointers_file is None or 1 < example.ptrs.size(0)).
-/
def filterPred (srcSeqLength tgtSeqLength : ℕ) (pointersOn : Bool)
    (src1Len tgt1Len ptrsRows : ℕ) : Bool :=
  (decide (0 < src1Len) && decide (src1Len ≤ srcSeqLength)) &&
  (decide (0 < tgt1Len) && decide (tgt1Len ≤ tgtSeqLength)) &&
  (!pointersOn || decide (1 < ptrsRows))

/-- Feature delimiter glyph of TextDataset.extract_text_features (line 146). -/
def featDelim : String := "￨"

/--
Result type of TextDataset.extract_text_features: the empty-input branch (line
144) returns a three-component tuple, every other successful exit (line 161)
returns a four-component tuple whose last component is the character
decomposition.
-/
inductive ExtractOut where
  | triple (words : List String) (feats : List (List String)) (nfeats : ℤ)
  | quad (words : List String) (feats : List (List String)) (nfeats : ℤ)
      (chars : List (List String))
deriving DecidableEq

/-- Test for the angle-bracket special-token shape re.match(r"<[\s\S]*>", w):
the word starts with '<' and a '>' occurs somewhere after it. -/
def isSpecialShape (w : String) : Bool :=
  w.startsWith "<" && (w.data.drop 1).contains '>'

/--
Character decomposition of one word (TextDataset.py line 157): the stripped
word is exploded into characters unless it is the literal "N/A" or matches the
angle-bracket special-token shape, in which case it is kept whole.
-/
def wordChars (w : String) : List String :=
  let t := w.trim
  if t != "N/A" && !(isSpecialShape t) then t.data.map Char.toString else [t]

/--
TextDataset.extract_text_features (TextDataset.py lines 134-161).  An empty
token list returns the three-component tuple ([], [], -1); otherwise each token
is split on the delimiter, tokens with an empty word dropped, the per-token
feature counts checked for consistency (the failed assert, and the IndexError
raised when every token is dropped, are modelled as none), and the
four-component tuple (words, feature columns, token_size - 1, chars) returned.
-/
def extractTextFeatures (tokens : List String) : Option ExtractOut :=
  if tokens = [] then some (.triple [] [] (-1))
  else
    let split := (tokens.map (fun tok => tok.splitOn featDelim)).filter
      (fun t => t.headD "" != "")
    match split with
    | [] => none
    | first :: _ =>
      let tokenSize := first.length
      if split.all (fun t => t.length == tokenSize) then
        let words := split.map (fun t => t.headD "")
        let features := (List.range (tokenSize - 1)).map
          (fun j => split.map (fun t => t.getD (j + 1) ""))
        some (.quad words features ((tokenSize : ℤ) - 1) (words.map wordChars))
      else none

/-- Near-zero floor 1e-10 written by index_fill_ (TextDataset.py line 187). -/
def fillFloor : ℚ := 1 / 10 ^ 10

/--
The (blank, fill) pairs collected per example by collapse_copy_scores
(TextDataset.py lines 176-181): for each dynamic id i >= 1 whose word
sw = src_vocab.itos[i] has a non-zero fixed-vocabulary id ti = tgt_vocab.stoi[sw],
blank gets offset + i and fill gets ti.
-/
def blankFillPairs (offset : ℕ) (tgtStoi : String → ℕ)
    (srcItos : List String) : List (ℕ × ℕ) :=
  (List.range srcItos.length).filterMap (fun i =>
    if i = 0 then none
    else if tgtStoi (srcItos.getD i "") = 0 then none
    else some (offset + i, tgtStoi (srcItos.getD i "")))

/--
scores[:, b].index_add_(1, fill, scores[:, b].index_select(1, blank))
(TextDataset.py line 185): each fill column accumulates the snapshot value of
its blank column, taken from the row as it was before the call.
-/
def indexAddSelect (row : ℕ → ℚ) (pairs : List (ℕ × ℕ)) : ℕ → ℚ :=
  pairs.foldl (fun acc p => Function.update acc p.2 (acc p.2 + row p.1)) row

/-- scores[:, b].index_fill_(1, blank, 1e-10) (TextDataset.py line 187). -/
def indexFill (v : ℚ) (idxs : List ℕ) (row : ℕ → ℚ) : ℕ → ℚ :=
  idxs.foldl (fun acc i => Function.update acc i v) row

/-- collapse_copy_scores applied to one row of one example's score slice. -/
def collapseRow (offset : ℕ) (tgtStoi : String → ℕ) (srcItos : List String)
    (row : ℕ → ℚ) : ℕ → ℚ :=
  indexFill fillFloor ((blankFillPairs offset tgtStoi srcItos).map Prod.fst)
    (indexAddSelect row (blankFillPairs offset tgtStoi srcItos))

/--
TextDataset.collapse_copy_scores (TextDataset.py lines 163-188) over the whole
batch tensor scores[row, b, column]: example b uses the dynamic vocabulary
src_vocabs[batch.indices[b]]; offset = len(tgt_vocab).
-/
def collapseCopyScores (offset : ℕ) (tgtStoi : String → ℕ)
    (srcVocabs : ℕ → List String) (indices : ℕ → ℕ)
    (scores : ℕ → ℕ → ℕ → ℚ) : ℕ → ℕ → ℕ → ℚ :=
  fun r b => collapseRow offset tgtStoi (srcVocabs (indices b)) (fun c => scores r b c)

/-- Concrete fixed-vocabulary stoi used for collapse witnesses:
a has id 2, b has id 3, every other word is unknown (0); offset 5. -/
def wTgtStoi : String → ℕ := fun w => if w = "a" then 2 else if w = "b" then 3 else 0

/-- Concrete per-example dynamic vocabularies used for collapse witnesses. -/
def wSrcVocabs : ℕ → List String := fun n =>
  if n = 0 then [UNK_WORD, "a", "z"] else [UNK_WORD, "b"]

/-- Concrete batch scores used for collapse witnesses. -/
def wScores : ℕ → ℕ → ℕ → ℚ := fun _ _ c => 1 / (c + 2 : ℚ)

/-- Field configuration relevant to BoxField.pad and BoxCharField.pad. -/
structure PadCfg where
  initToken : Option String
  eosToken : Option String
  padToken : String
  fixLength : Option ℕ
  padFirst : Bool
  truncateFirst : Bool
deriving DecidableEq

/-- Number of None entries among (init_token, eos_token). -/
def optNoneCount (cfg : PadCfg) : ℕ :=
  (if cfg.initToken = none then 1 else 0) + (if cfg.eosToken = none then 1 else 0)

/--
Target length of BoxField.pad and BoxCharField.pad (BoxField.py lines 311-315
and 63-67): the batch's longest example when fix_length is None, else
fix_length + (init_token, eos_token).count(None) - 2.  (CPython negative-slice
behaviour for a fix_length below 2 - count(None) is not modelled; the theorems
below only use fix_length = None.)
-/
def batchMaxLen (cfg : PadCfg) (lens : List ℕ) : ℕ :=
  match cfg.fixLength with
  | none => lens.foldr max 0
  | some n => n + optNoneCount cfg - 2

/-- List of an optional boundary token. -/
def optTok : Option String → List String
  | none => []
  | some s => [s]

/--
BoxField.pad on one example (BoxField.py lines 317-330): boundary tokens are
spliced adjacent to the (possibly truncated) content and the pad tokens fill
the remainder on the configured side.
-/
def boxPadOne (cfg : PadCfg) (maxLen : ℕ) (x : List String) : List String :=
  if cfg.padFirst then
    List.replicate (maxLen - x.length) cfg.padToken ++ optTok cfg.initToken ++
      x.take maxLen ++ optTok cfg.eosToken
  else
    optTok cfg.initToken ++ x.take maxLen ++ optTok cfg.eosToken ++
      List.replicate (maxLen - x.length) cfg.padToken

/-- BoxField.pad over a minibatch (padded component). -/
def boxPad (cfg : PadCfg) (minibatch : List (List String)) : List (List String) :=
  minibatch.map (boxPadOne cfg (batchMaxLen cfg (minibatch.map List.length)))

/-- BoxCharField.pad_char (BoxField.py lines 55-57): pad every word to
maxCharLen characters with the pad token. -/
def padChar (padToken : String) (maxCharLen : ℕ)
    (elementLst : List (List String)) : List (List String) :=
  elementLst.map (fun e => e ++ List.replicate (maxCharLen - e.length) padToken)

/-- Content slice of BoxCharField.pad: x[-max_len:] when truncate_first else
x[:max_len]. -/
def charContent (cfg : PadCfg) (maxLen : ℕ) (x : List (List String)) :
    List (List String) :=
  if cfg.truncateFirst then x.drop (x.length - maxLen) else x.take maxLen

/--
BoxCharField.pad on one example (BoxField.py lines 69-92, padded component):
pad words, boundary words and content words are each char-padded to maxCharLen,
assembled on the side configured by pad_first.
-/
def boxCharPadOne (cfg : PadCfg) (maxLen maxCharLen : ℕ)
    (x : List (List String)) : List (List String) :=
  if cfg.padFirst then
    padChar cfg.padToken maxCharLen
        (List.replicate (maxLen - x.length) [cfg.padToken]) ++
      padChar cfg.padToken maxCharLen ((optTok cfg.initToken).map (fun s => [s])) ++
      padChar cfg.padToken maxCharLen (charContent cfg maxLen x) ++
      padChar cfg.padToken maxCharLen ((optTok cfg.eosToken).map (fun s => [s]))
  else
    padChar cfg.padToken maxCharLen ((optTok cfg.initToken).map (fun s => [s])) ++
      padChar cfg.padToken maxCharLen (charContent cfg maxLen x) ++
      padChar cfg.padToken maxCharLen ((optTok cfg.eosToken).map (fun s => [s])) ++
      padChar cfg.padToken maxCharLen
        (List.replicate (maxLen - x.length) [cfg.padToken])

/-- Longest word length in characters across the minibatch (BoxField.py
line 68). -/
def batchMaxCharLen (minibatch : List (List (List String))) : ℕ :=
  (minibatch.map (fun x => (x.map List.length).foldr max 0)).foldr max 0

/-- BoxCharField.pad over a minibatch (padded component). -/
def boxCharPad (cfg : PadCfg) (minibatch : List (List (List String))) :
    List (List (List String)) :=
  minibatch.map (boxCharPadOne cfg
    (batchMaxLen cfg (minibatch.map List.length)) (batchMaxCharLen minibatch))

/-- Keep predicate of the word-level strip: drop the pad token and the two
boundary tokens. -/
def keepTok (cfg : PadCfg) (tok : String) : Bool :=
  !(tok == cfg.padToken) && !(some tok == cfg.initToken) &&
    !(some tok == cfg.eosToken)

/-- Strip pad tokens and boundary tokens from one padded word sequence. -/
def stripTokens (cfg : PadCfg) (padded : List String) : List String :=
  padded.filter (keepTok cfg)

/-- Strip pad character-tokens from one padded word. -/
def stripCharWord (cfg : PadCfg) (w : List String) : List String :=
  w.filter (fun c => !(c == cfg.padToken))

/-- Keep predicate of the word-level strip: drop words reduced to nothing by
the character strip and drop boundary words. -/
def charKeep (cfg : PadCfg) (w : List String) : Bool :=
  !(w.isEmpty) &&
    (match cfg.initToken with | none => true | some s => !(w == [s])) &&
    (match cfg.eosToken with | none => true | some s => !(w == [s]))

/-- Strip the nested character field: remove pad character-tokens inside
words, then drop pure-padding and boundary words. -/
def stripCharTokens (cfg : PadCfg) (padded : List (List String)) :
    List (List String) :=
  (padded.map (stripCharWord cfg)).filter (charKeep cfg)

/-- Word-field configuration with boundary tokens as in fields["tgt2"]
(init <s>, eos </s>, pad <pad>), no fixed length, pad appended. -/
def wordCfg : PadCfg := ⟨some "<s>", some "</s>", PAD_WORD, none, false, false⟩

/-- Character-field configuration as in fields["src2_char"]: pad token only,
no boundary tokens, no fixed length. -/
def charCfg : PadCfg := ⟨none, none, PAD_WORD, none, false, false⟩

/-- Mutable position of a ShardedTextCorpusIterator (TextDataset.py lines
531-533): line_index starts at -1, eof starts False. -/
structure RdState where
  lineIndex : ℤ
  eof : Bool
deriving DecidableEq

/-- Initial reader state (TextDataset.py lines 531-533). -/
def initRd : RdState := ⟨-1, false⟩

/--
One __iter__ pass of the driving reader (no assoc_iter; TextDataset.py lines
558-581) over a corpus of n lines.  The byte-size shard check is abstracted
into a quota q of lines this shard allows (every real pass reads at least one
line before the check can fire, so schedules with q >= 1 cover the code's
behaviour): if fewer than q lines remain, the pass reads them all, then
readline returns the empty string, which sets eof (lines 574-577); otherwise
the pass stops at the shard boundary after q lines with eof untouched.
-/
def drivePass (n q : ℕ) (a : RdState) : RdState :=
  if (n : ℤ) - (a.lineIndex + 1) < (q : ℤ) then ⟨(n : ℤ) - 1, true⟩
  else ⟨a.lineIndex + (q : ℤ), a.eof⟩

/-- Error message of TextDataset.py lines 548-549. -/
def mismatchMsg : String := "Two corpuses must have same number of lines!"

/--
One __iter__ pass of the lockstep reader paired via assoc_iter (TextDataset.py
lines 542-557) over its own corpus of m lines, after its peer finished a pass
ending in state a: it reads one line per peer line until line_index catches up
with the peer's, raising the corpus-length-mismatch AssertionError if a needed
readline returns the empty string (its corpus ran out first), and finally sets
its own eof when the peer's eof is set.
-/
def assocPass (m : ℕ) (a b : RdState) : Except String RdState :=
  if b.lineIndex < a.lineIndex ∧ (m : ℤ) ≤ a.lineIndex then
    .error mismatchMsg
  else
    .ok ⟨max b.lineIndex a.lineIndex, if a.eof then true else b.eof⟩

/-- One round of the paired iteration: the driving reader runs one shard pass,
then the lockstep reader catches up. -/
def lockstepRound (n m q : ℕ) (st : RdState × RdState) :
    Except String (RdState × RdState) :=
  match assocPass m (drivePass n q st.1) st.2 with
  | .error e => .error e
  | .ok b => .ok (drivePass n q st.1, b)

/-- Full paired iteration over a schedule of shard quotas. -/
def runRounds (n m : ℕ) (qs : List ℕ) (st : RdState × RdState) :
    Except String (RdState × RdState) :=
  match qs with
  | [] => .ok st
  | q :: rest =>
    match lockstepRound n m q st with
    | .error e => .error e
    | .ok st2 => runRounds n m rest st2

/-- Invariant of the paired iteration over equal-or-longer lockstep corpora:
the lockstep reader mirrors the driver's position and eof flag, and the driver
stays within its corpus, with eof only at the last line. -/
def lockstepInv (n : ℕ) (st : RdState × RdState) : Prop :=
  st.2.lineIndex = st.1.lineIndex ∧ st.2.eof = st.1.eof ∧
  -1 ≤ st.1.lineIndex ∧ st.1.lineIndex ≤ (n : ℤ) - 1 ∧
  (st.1.eof = true → st.1.lineIndex = (n : ℤ) - 1)

/-- Invariant of the paired iteration while the lockstep corpus (m lines) has
not yet been overrun: positions in lockstep, both eof flags still clear, the
driver within the first m lines. -/
def lockstepInvB (m : ℕ) (st : RdState × RdState) : Prop :=
  st.2.lineIndex = st.1.lineIndex ∧ st.1.eof = false ∧ st.2.eof = false ∧
  -1 ≤ st.1.lineIndex ∧ st.1.lineIndex ≤ (m : ℤ) - 1

theorem criterionMass_false_eval (eps : ℚ) (offset : ℕ) (scores : ℕ → ℚ)
    (a t : ℕ) :
    criterionMass false eps offset scores a t =
      scores (a + offset) * (if a = 0 then 0 else 1) + eps +
      scores t * (if t = 0 then 0 else 1) +
      scores t * (if a = 0 then 1 else 0) * (if t = 0 then 1 else 0) := by
  simp [criterionMass]

theorem criterionMass_true_eval (eps : ℚ) (offset : ℕ) (scores : ℕ → ℚ)
    (a t : ℕ) :
    criterionMass true eps offset scores a t =
      scores (a + offset) * (if a = 0 then 0 else 1) + eps +
      scores t * (if a = 0 then 1 else 0) := by
  simp [criterionMass]

/--
C1 (amended): for the copy-loss criterion with force_copy disabled, at a
position with target = unknown id 0 and non-zero align the loss equals
-log(copy probability at column align + vocab_size, plus eps); at a position
with a real target id and zero align the loss equals -log(fixed-vocabulary
probability at the target column PLUS eps); at a padded position the
contributed loss is exactly zero; and eps is added to the mass of every
position, including positions whose copy contribution is zero.
-/
theorem C1_copy_loss_correct (eps : ℚ) (offset pad : ℕ) (scores : ℕ → ℚ)
    (a t : ℕ) :
    (t = 0 → a ≠ 0 → pad ≠ 0 →
      tokenLoss false eps offset pad scores a t =
        -Real.log ((scores (a + offset) + eps : ℚ) : ℝ)) ∧
    (t ≠ 0 → t ≠ pad → a = 0 →
      tokenLoss false eps offset pad scores a t =
        -Real.log ((scores t + eps : ℚ) : ℝ)) ∧
    (t = pad → tokenLoss false eps offset pad scores a t = 0) ∧
    (t = 0 → a = 0 → pad ≠ 0 →
      tokenLoss false eps offset pad scores a t =
        -Real.log ((scores 0 + eps : ℚ) : ℝ)) := by
  refine ⟨?_, ?_, ?_, ?_⟩
  · intro ht ha hp
    subst ht
    have hm : criterionMass false eps offset scores a 0 = scores (a + offset) + eps := by
      rw [criterionMass_false_eval]
      simp [ha]
      try ring
    rw [tokenLoss, hm]
    simp [Ne.symm hp]
  · intro ht htp ha
    subst ha
    have hm : criterionMass false eps offset scores 0 t = scores t + eps := by
      rw [criterionMass_false_eval]
      simp [ht]
      try ring
    rw [tokenLoss, hm]
    simp [htp]
  · intro ht
    subst ht
    rw [tokenLoss]
    simp
  · intro ht ha hp
    subst ht; subst ha
    have hm : criterionMass false eps offset scores 0 0 = scores 0 + eps := by
      rw [criterionMass_false_eval]
      simp
      try ring
    rw [tokenLoss, hm]
    simp [Ne.symm hp]

/-- Witness for C1_copy_loss_correct at concrete inputs. -/
theorem C1_copy_loss_correct_witness :
    (tokenLoss false criterionEps 5 1 cScores 3 0 =
      -Real.log ((cScores (3 + 5) + criterionEps : ℚ) : ℝ)) ∧
    (tokenLoss false criterionEps 5 1 cScores 0 2 =
      -Real.log ((cScores 2 + criterionEps : ℚ) : ℝ)) ∧
    (tokenLoss false criterionEps 5 1 cScores 3 1 = 0) ∧
    (tokenLoss false criterionEps 5 1 cScores 0 0 =
      -Real.log ((cScores 0 + criterionEps : ℚ) : ℝ)) :=
  ⟨(C1_copy_loss_correct criterionEps 5 1 cScores 3 0).1 rfl (by decide) (by decide),
   (C1_copy_loss_correct criterionEps 5 1 cScores 0 2).2.1 (by decide) (by decide) rfl,
   (C1_copy_loss_correct criterionEps 5 1 cScores 3 1).2.2.1 rfl,
   (C1_copy_loss_correct criterionEps 5 1 cScores 0 0).2.2.2 rfl rfl (by decide)⟩

/--
C1 counterexample: at a position with a real target id (2) and zero align, the
loss is -log(scores 2 + eps), which differs from the -log(scores 2) demanded by
the claim, because the code adds eps to the mass of every position, not only to
non-zero copy contributions.
-/
theorem C1_counterexample :
    tokenLoss false criterionEps 5 1 cScores 0 2 ≠
      -Real.log ((cScores 2 : ℚ) : ℝ) := by
  have hm : criterionMass false criterionEps 5 cScores 0 2 =
      1 / 2 + 1 / 10 ^ 20 := by
    rw [criterionMass_false_eval]
    norm_num [cScores, criterionEps]
  have h2 : (cScores 2 : ℚ) = 1 / 2 := by norm_num [cScores]
  rw [tokenLoss, hm, h2]
  have hlt : Real.log ((1 / 2 : ℝ)) < Real.log (((1 / 2 + 1 / 10 ^ 20 : ℚ) : ℝ)) := by
    apply Real.log_lt_log (by norm_num)
    push_cast
    norm_num
  push_cast at hlt ⊢
  simp only [if_neg (by norm_num : (2 : ℕ) ≠ 1), mul_one]
  intro h
  have := neg_injective h
  linarith

/--
C6 (amended): in force-copy mode, at a position where both target and align are
the unknown id 0, the criterion still grants the fixed-vocabulary unknown-id
credit: the mass entering the logarithm equals the fixed-vocabulary probability
of the unknown id plus eps.  What force-copy denies instead is the
fixed-vocabulary target credit at positions whose align is non-zero: there the
mass equals the copy probability at the aligned column plus eps, with no
fixed-vocabulary contribution.
-/
theorem C6_force_copy_unk_credit (eps : ℚ) (offset : ℕ) (scores : ℕ → ℚ)
    (a t : ℕ) :
    (t = 0 → a = 0 →
      criterionMass true eps offset scores a t = scores 0 + eps) ∧
    (a ≠ 0 →
      criterionMass true eps offset scores a t = scores (a + offset) + eps) := by
  constructor
  · intro ht ha
    subst ht; subst ha
    rw [criterionMass_true_eval]
    simp
    try ring
  · intro ha
    rw [criterionMass_true_eval]
    simp [ha]
    try ring

/-- Witness for C6_force_copy_unk_credit at concrete inputs. -/
theorem C6_force_copy_unk_credit_witness :
    (criterionMass true criterionEps 5 cScores 0 0 = cScores 0 + criterionEps) ∧
    (criterionMass true criterionEps 5 cScores 3 2 =
      cScores (3 + 5) + criterionEps) :=
  ⟨(C6_force_copy_unk_credit criterionEps 5 cScores 0 0).1 rfl rfl,
   (C6_force_copy_unk_credit criterionEps 5 cScores 3 2).2 (by decide)⟩

/--
C6 counterexample: in force-copy mode at a non-pad position with target = 0 and
align = 0 the mass entering the logarithm does contain a fixed-vocabulary
contribution: it equals the fixed-vocabulary unknown-id probability plus eps,
it is not eps alone, and it changes when only the fixed-vocabulary unknown
column of the score row changes (fvScoresA and fvScoresB agree on every copy
column c ≥ 5 and differ only below the offset).
-/
theorem C6_counterexample :
    criterionMass true criterionEps 5 fvScoresA 0 0 = fvScoresA 0 + criterionEps ∧
    fvScoresA 5 = fvScoresB 5 ∧
    criterionMass true criterionEps 5 fvScoresA 0 0 ≠
      criterionMass true criterionEps 5 fvScoresB 0 0 ∧
    criterionMass true criterionEps 5 fvScoresA 0 0 ≠ criterionEps := by
  refine ⟨?_, rfl, ?_, ?_⟩
  · rw [criterionMass_true_eval]
    norm_num [fvScoresA]
    try ring
  · rw [criterionMass_true_eval, criterionMass_true_eval]
    norm_num [fvScoresA, fvScoresB]
  · rw [criterionMass_true_eval]
    norm_num [fvScoresA, criterionEps]

/--
C2: in training mode CopyGenerator.forward computes the extended distribution
without using the learned copy-switch probability: the result is unchanged when
pCopy is replaced by any other function; at a position whose alignment is
non-zero the fixed-vocabulary columns are zeroed and the copy columns hold the
attention weights gated elementwise by the pointer row and projected through
src_map; at a position whose alignment is zero the fixed-vocabulary softmax is
kept and the copy columns are zero.
-/
theorem C2_training_mixing (vocabSize slen : ℕ) (prob : ℕ → ℕ → ℕ → ℚ)
    (pCopy pCopy2 : ℕ → ℕ → ℚ) (attn ptrs srcMap : ℕ → ℕ → ℕ → ℚ)
    (align : ℕ → ℕ → ℕ) (t b : ℕ) :
    (∀ j, copyGenForward true vocabSize slen prob pCopy attn ptrs srcMap align t b j =
          copyGenForward true vocabSize slen prob pCopy2 attn ptrs srcMap align t b j) ∧
    (align t b ≠ 0 →
      (∀ j, j < vocabSize →
        copyGenForward true vocabSize slen prob pCopy attn ptrs srcMap align t b j = 0) ∧
      (∀ c, copyGenForward true vocabSize slen prob pCopy attn ptrs srcMap align t b
              (vocabSize + c) =
            ∑ s in Finset.range slen, attn t b s * ptrs t b s * srcMap s b c)) ∧
    (align t b = 0 →
      (∀ j, j < vocabSize →
        copyGenForward true vocabSize slen prob pCopy attn ptrs srcMap align t b j =
          prob t b j) ∧
      (∀ c, copyGenForward true vocabSize slen prob pCopy attn ptrs srcMap align t b
              (vocabSize + c) = 0)) := by
  have hge : ∀ c : ℕ, ¬ (vocabSize + c < vocabSize) := fun c => by omega
  refine ⟨?_, ?_, ?_⟩
  · intro j
    by_cases hj : j < vocabSize
    · simp [copyGenForward, hj, copyGenOutProb]
    · simp [copyGenForward, hj, copyGenCopyProb, copyGenMulAttn]
  · intro ha
    constructor
    · intro j hj
      simp [copyGenForward, hj, copyGenOutProb, ha]
    · intro c
      simp only [copyGenForward, hge c, if_false, Nat.add_sub_cancel_left,
        copyGenCopyProb, copyGenMulAttn, if_pos, if_neg ha]
      apply Finset.sum_congr rfl
      intro s _
      simp [ha]
      try ring
  · intro ha
    constructor
    · intro j hj
      simp [copyGenForward, hj, copyGenOutProb, ha]
    · intro c
      simp only [copyGenForward, hge c, if_false, Nat.add_sub_cancel_left,
        copyGenCopyProb, copyGenMulAttn]
      simp [ha]

/-- Witness for C2_training_mixing on concrete tensors (vocabSize 2, slen 1). -/
theorem C2_training_mixing_witness :
    (copyGenForward true 2 1 wProb wPCopy wAttn wPtrs wSrcMap wAlign 0 0 0 =
     copyGenForward true 2 1 wProb wPCopy2 wAttn wPtrs wSrcMap wAlign 0 0 0) ∧
    (copyGenForward true 2 1 wProb wPCopy wAttn wPtrs wSrcMap wAlign 0 0 0 = 0) ∧
    (copyGenForward true 2 1 wProb wPCopy wAttn wPtrs wSrcMap wAlign 0 0 (2 + 1) =
      ∑ s in Finset.range 1, wAttn 0 0 s * wPtrs 0 0 s * wSrcMap s 0 1) ∧
    (copyGenForward true 2 1 wProb wPCopy wAttn wPtrs wSrcMap wAlign 1 0 1 =
      wProb 1 0 1) ∧
    (copyGenForward true 2 1 wProb wPCopy wAttn wPtrs wSrcMap wAlign 1 0 (2 + 0) = 0) :=
  ⟨(C2_training_mixing 2 1 wProb wPCopy wPCopy2 wAttn wPtrs wSrcMap wAlign 0 0).1 0,
   ((C2_training_mixing 2 1 wProb wPCopy wPCopy2 wAttn wPtrs wSrcMap wAlign 0 0).2.1
      (by decide)).1 0 (by decide),
   ((C2_training_mixing 2 1 wProb wPCopy wPCopy2 wAttn wPtrs wSrcMap wAlign 0 0).2.1
      (by decide)).2 1,
   ((C2_training_mixing 2 1 wProb wPCopy wPCopy2 wAttn wPtrs wSrcMap wAlign 1 0).2.2
      rfl).1 1 (by decide),
   ((C2_training_mixing 2 1 wProb wPCopy wPCopy2 wAttn wPtrs wSrcMap wAlign 1 0).2.2
      rfl).2 0⟩

theorem mem_ordInsert (le : String → String → Bool) (a x : String)
    (l : List String) : x ∈ ordInsert le a l ↔ x = a ∨ x ∈ l := by
  induction l with
  | nil => simp [ordInsert]
  | cons b l ih =>
    simp only [ordInsert]
    by_cases h : le a b
    · simp [h]
    · simp only [if_neg h, List.mem_cons, ih]
      tauto

theorem mem_insSort (le : String → String → Bool) (x : String)
    (l : List String) : x ∈ insSort le l ↔ x ∈ l := by
  induction l with
  | nil => simp [insSort]
  | cons a l ih => simp [insSort, mem_ordInsert, ih]

theorem mem_uniqueTokens (l : List String) :
    ∀ x, x ∈ uniqueTokens l ↔ x ∈ l := by
  induction l with
  | nil => intro x; simp [uniqueTokens]
  | cons w rest ih =>
    intro x
    simp only [uniqueTokens]
    by_cases h : w ∈ uniqueTokens rest
    · rw [if_pos h, ih x]
      constructor
      · intro hx; exact List.mem_cons_of_mem _ hx
      · intro hx
        rcases List.mem_cons.mp hx with rfl | hx
        · exact (ih x).mp h
        · exact hx
    · rw [if_neg h]
      simp [ih x]

theorem mem_dynItos (src : List String) (w : String) :
    w ∈ dynItos src ↔ w ∈ specialTokens ∨ (w ∈ src ∧ w ∉ specialTokens) := by
  simp [dynItos, mem_insSort, List.mem_filter, mem_uniqueTokens]

/--
C3 (amended): for every example processed by the dynamic-dictionary builder
without a pointer file, the alignment vector has length len(tgt2) + 2, begins
and ends with 0, and its i-th interior entry is the dynamic-source-vocabulary
id of the i-th target token; a target token absent from src2 that is not one of
the two reserved tokens maps to the unknown id 0, while a target token of src2
that is not reserved gets a dynamic id distinct from the reserved ids 0 and 1;
with src2 = "a b c" and target "b c" the alignment equals [0, 3, 4, 0].
-/
theorem C3_alignment_vector (src tgt : List String) :
    (alignmentVec src tgt).length = tgt.length + 2 ∧
    (alignmentVec src tgt).head? = some 0 ∧
    (alignmentVec src tgt).getLast? = some 0 ∧
    (∀ i (hi : i < tgt.length),
      (alignmentVec src tgt)[i + 1]? = some (dynStoi src (tgt.get ⟨i, hi⟩))) ∧
    (∀ w, w ∉ src → w ∉ specialTokens → dynStoi src w = 0) ∧
    (∀ w, w ∈ src → w ∉ specialTokens →
      dynStoi src w ≠ 0 ∧ dynStoi src w ≠ 1) ∧
    alignmentVec [ "a", "b", "c" ] [ "b", "c" ] = [0, 3, 4, 0] := by
  refine ⟨by simp [alignmentVec], by simp [alignmentVec], ?_, ?_, ?_, ?_, by decide⟩
  · have h : alignmentVec src tgt = ([0] ++ tgt.map (dynStoi src)) ++ [0] := by
      simp [alignmentVec]
    rw [h, List.getLast?_concat]
  · intro i hi
    have hlen : i < (tgt.map (dynStoi src)).length := by simpa using hi
    have hlt : i + 1 < (0 :: List.map (dynStoi src) tgt).length := by
      simpa using Nat.succ_lt_succ hi
    simp only [alignmentVec, List.singleton_append]
    rw [List.getElem?_append, if_pos hlt, List.getElem?_cons_succ,
      List.getElem?_eq_getElem hlen]
    simp
  · intro w hw hsp
    have : w ∉ dynItos src := by
      rw [mem_dynItos]
      tauto
    simp [dynStoi, this]
  · intro w hw hsp
    have hmem : w ∈ dynItos src := by
      rw [mem_dynItos]
      tauto
    have hunk : UNK_WORD ≠ w := by
      intro h; exact hsp (h ▸ List.mem_cons_self _ _)
    have hpad : PAD_WORD ≠ w := by
      intro h
      refine hsp (h ▸ ?_)
      simp [specialTokens]
    have hshape : dynItos src = UNK_WORD :: PAD_WORD :: insSort (vocabLe src)
        ((uniqueTokens src).filter (fun x => !(specialTokens.contains x))) := by
      simp [dynItos, specialTokens]
    have hidx : ∃ k, (dynItos src).indexOf w = k + 2 := by
      rw [hshape, List.indexOf_cons_ne _ hunk, List.indexOf_cons_ne _ hpad]
      refine ⟨(insSort (vocabLe src)
        ((uniqueTokens src).filter (fun x => !(specialTokens.contains x)))).indexOf w, ?_⟩
      omega
    rcases hidx with ⟨k, hk⟩
    rw [dynStoi, if_pos hmem, hk]
    omega

/-- Witness for C3_alignment_vector at concrete inputs. -/
theorem C3_alignment_vector_witness :
    ((alignmentVec [ "a", "b", "c" ] [ "b", "c" ])[0 + 1]? =
      some (dynStoi [ "a", "b", "c" ] (([ "b", "c" ] : List String).get ⟨0, by decide⟩))) ∧
    dynStoi [ "a" ] "z" = 0 ∧
    (dynStoi [ "a", "b", "c" ] "b" ≠ 0 ∧ dynStoi [ "a", "b", "c" ] "b" ≠ 1) :=
  ⟨(C3_alignment_vector [ "a", "b", "c" ] [ "b", "c" ]).2.2.2.1 0 (by decide),
   (C3_alignment_vector [ "a" ] [ "z" ]).2.2.2.2.1 "z" (by decide) (by decide),
   (C3_alignment_vector [ "a", "b", "c" ] [ "b", "c" ]).2.2.2.2.2.1 "b"
     (by decide) (by decide)⟩

/--
C3 counterexample: the target token "<pad>" of an example whose src2 is "a"
does not occur in src2, yet its interior alignment entry is the reserved pad id
1, not the unknown id 0 as the claim demands: reserved tokens always keep their
reserved dynamic ids.
-/
theorem C3_counterexample :
    alignmentVec [ "a" ] [ PAD_WORD ] = [0, 1, 0] ∧
    PAD_WORD ∉ ([ "a" ] : List String) ∧ (1 : ℕ) ≠ 0 := by decide

theorem le_foldr_max (l : List ℕ) (a : ℕ) (h : a ∈ l) : a ≤ l.foldr max 0 := by
  induction l with
  | nil => cases h
  | cons b l ih =>
    rcases List.mem_cons.mp h with rfl | h
    · exact le_max_left _ _
    · exact le_trans (ih h) (le_max_right _ _)

theorem groupLen_le_maxGroupLen (lineTuples : List (List ℤ)) (g : List ℤ)
    (h : g ∈ lineTuples) : g.length ≤ maxGroupLen lineTuples :=
  le_foldr_max _ _ (List.mem_map_of_mem _ h)

/--
C4: for every example assembled from a pointer line with G comma-groups and
maximum group size M, the produced ptrs table has exactly G + 2 rows and every
row has M + 1 columns; row j < G holds group j's integers left-aligned with the
group's element count in the final column, the second-to-last row's first
entry equals len(src2) and the last row's first entry equals len(tgt2).
-/
theorem C4_ptrs_shape (lineTuples : List (List ℤ)) (srcLen tgtLen : ℕ) :
    (buildPtrs lineTuples srcLen tgtLen).length = lineTuples.length + 2 ∧
    (∀ row ∈ buildPtrs lineTuples srcLen tgtLen,
      row.length = maxGroupLen lineTuples + 1) ∧
    (∀ (j : ℕ) (g : List ℤ), lineTuples[j]? = some g →
      (buildPtrs lineTuples srcLen tgtLen)[j]? =
        some (ptrRow (maxGroupLen lineTuples) g) ∧
      (ptrRow (maxGroupLen lineTuples) g).take g.length = g ∧
      (ptrRow (maxGroupLen lineTuples) g).getLast? = some ((g.length : ℤ))) ∧
    ((buildPtrs lineTuples srcLen tgtLen)[lineTuples.length]?).bind List.head? =
      some ((srcLen : ℤ)) ∧
    ((buildPtrs lineTuples srcLen tgtLen)[lineTuples.length + 1]?).bind
        List.head? = some ((tgtLen : ℤ)) := by
  have hmaplen : (lineTuples.map (ptrRow (maxGroupLen lineTuples))).length =
      lineTuples.length := by simp
  refine ⟨by simp [buildPtrs], ?_, ?_, ?_, ?_⟩
  · intro row hrow
    rw [buildPtrs] at hrow
    rcases List.mem_append.mp hrow with h1 | h2
    · rcases List.mem_append.mp h1 with hmap | hsrc
      · rcases List.mem_map.mp hmap with ⟨g, hg, rfl⟩
        have := groupLen_le_maxGroupLen lineTuples g hg
        simp [ptrRow]
        omega
      · rcases List.mem_singleton.mp hsrc with rfl
        simp
    · rcases List.mem_singleton.mp h2 with rfl
      simp
  · intro j g hj
    have hjlt : j < lineTuples.length := by
      have := List.getElem?_eq_some.mp hj
      exact this.1
    have hrow : (buildPtrs lineTuples srcLen tgtLen)[j]? =
        some (ptrRow (maxGroupLen lineTuples) g) := by
      rw [buildPtrs, List.getElem?_append,
        if_pos (by simp; omega : j < ((lineTuples.map (ptrRow (maxGroupLen lineTuples))) ++
          [(srcLen : ℤ) :: List.replicate (maxGroupLen lineTuples) 0]).length)]
      rw [List.getElem?_append, if_pos (by omega : j <
        (lineTuples.map (ptrRow (maxGroupLen lineTuples))).length)]
      rw [List.getElem?_map, hj]
      rfl
    refine ⟨hrow, ?_, ?_⟩
    · have : ptrRow (maxGroupLen lineTuples) g =
          g ++ (List.replicate (maxGroupLen lineTuples - g.length) 0 ++
            [(g.length : ℤ)]) := by
        simp [ptrRow]
      rw [this, List.take_left]
    · have : ptrRow (maxGroupLen lineTuples) g =
          (g ++ List.replicate (maxGroupLen lineTuples - g.length) 0) ++
            [(g.length : ℤ)] := by
        simp [ptrRow]
      rw [this, List.getLast?_concat]
  · rw [buildPtrs, List.getElem?_append,
      if_pos (by simp : lineTuples.length <
        ((lineTuples.map (ptrRow (maxGroupLen lineTuples))) ++
          [(srcLen : ℤ) :: List.replicate (maxGroupLen lineTuples) 0]).length)]
    rw [List.getElem?_append, if_neg (by omega : ¬ (lineTuples.length <
      (lineTuples.map (ptrRow (maxGroupLen lineTuples))).length))]
    rw [hmaplen]
    simp
  · rw [buildPtrs, List.getElem?_append,
      if_neg (by simp : ¬ (lineTuples.length + 1 <
        ((lineTuples.map (ptrRow (maxGroupLen lineTuples))) ++
          [(srcLen : ℤ) :: List.replicate (maxGroupLen lineTuples) 0]).length))]
    simp

/-- Witness for C4_ptrs_shape on the concrete pointer line "1,2 3" with
src length 4 and tgt length 2. -/
theorem C4_ptrs_shape_witness :
    ((buildPtrs [ [1, 2], [3] ] 4 2).length = ([ [1, 2], [3] ] : List (List ℤ)).length + 2) ∧
    ((buildPtrs [ [1, 2], [3] ] 4 2)[0]? = some (ptrRow (maxGroupLen [ [1, 2], [3] ]) [1, 2])) ∧
    ((ptrRow (maxGroupLen [ [1, 2], [3] ]) [3]).take ([3] : List ℤ).length = [3]) ∧
    ((ptrRow (maxGroupLen [ [1, 2], [3] ]) [3]).getLast? = some ((([3] : List ℤ).length : ℤ))) ∧
    (((buildPtrs [ [1, 2], [3] ] 4 2)[([ [1, 2], [3] ] : List (List ℤ)).length]?).bind
      List.head? = some ((4 : ℕ) : ℤ)) ∧
    (((buildPtrs [ [1, 2], [3] ] 4 2)[([ [1, 2], [3] ] : List (List ℤ)).length + 1]?).bind
      List.head? = some ((2 : ℕ) : ℤ)) :=
  ⟨(C4_ptrs_shape [ [1, 2], [3] ] 4 2).1,
   ((C4_ptrs_shape [ [1, 2], [3] ] 4 2).2.2.1 0 [1, 2] (by decide)).1,
   ((C4_ptrs_shape [ [1, 2], [3] ] 4 2).2.2.1 1 [3] (by decide)).2.1,
   ((C4_ptrs_shape [ [1, 2], [3] ] 4 2).2.2.1 1 [3] (by decide)).2.2,
   (C4_ptrs_shape [ [1, 2], [3] ] 4 2).2.2.2.1,
   (C4_ptrs_shape [ [1, 2], [3] ] 4 2).2.2.2.2⟩

/--
C10: every pointer table produced by the dynamic-dictionary builder has
G + 2 >= 2 rows, so the filter predicate's pointer clause is true for every
example assembled with a pointer file, and the predicate always reduces to the
pure length conditions, whether or not a pointer file is supplied.
-/
theorem C10_filter_ptr_clause (lineTuples : List (List ℤ)) (srcLen tgtLen : ℕ)
    (srcSeqLength tgtSeqLength src1Len tgt1Len : ℕ) (pointersOn : Bool) :
    1 < (buildPtrs lineTuples srcLen tgtLen).length ∧
    filterPred srcSeqLength tgtSeqLength pointersOn src1Len tgt1Len
        (buildPtrs lineTuples srcLen tgtLen).length =
      ((decide (0 < src1Len) && decide (src1Len ≤ srcSeqLength)) &&
       (decide (0 < tgt1Len) && decide (tgt1Len ≤ tgtSeqLength))) := by
  have h : (buildPtrs lineTuples srcLen tgtLen).length = lineTuples.length + 2 := by
    simp [buildPtrs]
  constructor
  · omega
  · rw [filterPred, h]
    have hd : decide (1 < lineTuples.length + 2) = true := by simp
    cases pointersOn <;> simp [hd]

/--
C9: on the empty token list, extract_text_features executes `return [], [], -1`
(TextDataset.py line 144), producing a THREE-component result with no character
sequence at all, not the four-component result with an empty character sequence
that the claim (and the function's own docstring and its callers, which unpack
four values) describe.
-/
theorem C9_empty_extract :
    extractTextFeatures [] = some (.triple [] [] (-1)) ∧
    extractTextFeatures [] ≠ some (.quad [] [] (-1) []) := by
  constructor
  · rfl
  · decide

theorem indexFill_apply (v : ℚ) (idxs : List ℕ) :
    ∀ (row : ℕ → ℚ) (c : ℕ),
      indexFill v idxs row c = if c ∈ idxs then v else row c := by
  induction idxs with
  | nil => intro row c; simp [indexFill]
  | cons i rest ih =>
    intro row c
    have hstep : indexFill v (i :: rest) row =
        indexFill v rest (Function.update row i v) := rfl
    rw [hstep, ih]
    by_cases hc : c ∈ rest
    · simp [hc]
    · by_cases hci : c = i
      · subst hci
        simp [hc, Function.update_same]
      · simp [hc, hci, Function.update_noteq hci]

theorem indexAddSelect_foldl (row : ℕ → ℚ) (pairs : List (ℕ × ℕ)) :
    ∀ (acc : ℕ → ℚ) (c : ℕ),
      pairs.foldl (fun acc2 p => Function.update acc2 p.2 (acc2 p.2 + row p.1)) acc c =
        acc c + ((pairs.filter (fun p => p.2 == c)).map (fun p => row p.1)).sum := by
  induction pairs with
  | nil => intro acc c; simp
  | cons q rest ih =>
    intro acc c
    rw [List.foldl_cons, ih]
    by_cases hq : q.2 = c
    · rw [List.filter_cons_of_pos (by simp [hq])]
      subst hq
      simp only [Function.update_same, List.map_cons, List.sum_cons]
      ring
    · rw [List.filter_cons_of_neg (by simp [hq])]
      rw [Function.update_noteq (Ne.symm hq)]

theorem indexAddSelect_apply (row : ℕ → ℚ) (pairs : List (ℕ × ℕ)) (c : ℕ) :
    indexAddSelect row pairs c =
      row c + ((pairs.filter (fun p => p.2 == c)).map (fun p => row p.1)).sum :=
  indexAddSelect_foldl row pairs row c

theorem mem_blankFillPairs (offset : ℕ) (tgtStoi : String → ℕ)
    (srcItos : List String) (p : ℕ × ℕ) :
    p ∈ blankFillPairs offset tgtStoi srcItos ↔
      ∃ i, i < srcItos.length ∧ i ≠ 0 ∧ tgtStoi (srcItos.getD i "") ≠ 0 ∧
        p = (offset + i, tgtStoi (srcItos.getD i "")) := by
  rw [blankFillPairs, List.mem_filterMap]
  constructor
  · rintro ⟨i, hir, hf⟩
    by_cases h0 : i = 0
    · rw [if_pos h0] at hf; cases hf
    · rw [if_neg h0] at hf
      by_cases ht : tgtStoi (srcItos.getD i "") = 0
      · rw [if_pos ht] at hf; cases hf
      · rw [if_neg ht] at hf
        exact ⟨i, List.mem_range.mp hir, h0, ht, (Option.some_inj.mp hf).symm⟩
  · rintro ⟨i, hi, h0, ht, rfl⟩
    exact ⟨i, List.mem_range.mpr hi, by rw [if_neg h0, if_neg ht]⟩

theorem blankFillPairs_nodup (offset : ℕ) (tgtStoi : String → ℕ)
    (srcItos : List String) : (blankFillPairs offset tgtStoi srcItos).Nodup := by
  apply List.Nodup.filterMap ?_ (List.nodup_range _)
  intro a a2 b hb hb2
  have h1 : ∀ (x : ℕ),
      b ∈ (if x = 0 then none
        else if tgtStoi (srcItos.getD x "") = 0 then none
        else some (offset + x, tgtStoi (srcItos.getD x ""))) → b.1 = offset + x := by
    intro x hx
    split_ifs at hx with h0 ht
    · cases hx
    · cases hx
    · rw [Option.mem_def, Option.some_inj] at hx
      rw [← hx]
  have ha := h1 a hb
  have ha2 := h1 a2 hb2
  omega

theorem filter_snd_eq_single (pairs : List (ℕ × ℕ)) :
    ∀ q ∈ pairs,
      (∀ p ∈ pairs, ∀ p2 ∈ pairs, p.2 = p2.2 → p = p2) →
      pairs.Nodup →
      pairs.filter (fun p => p.2 == q.2) = [q] := by
  induction pairs with
  | nil => intro q hq; cases hq
  | cons r rest ih =>
    intro q hq huniq hnd
    rcases List.mem_cons.mp hq with rfl | hqrest
    · have hhead : List.filter (fun p => p.2 == q.2) (q :: rest) =
          q :: List.filter (fun p => p.2 == q.2) rest := by
        simp [List.filter_cons]
      rw [hhead]
      have hrest : rest.filter (fun p => p.2 == q.2) = [] := by
        rw [List.filter_eq_nil_iff]
        intro p hp
        simp only [beq_iff_eq]
        intro h
        have : p = q :=
          huniq p (List.mem_cons_of_mem _ hp) q (List.mem_cons_self _ _) h
        subst this
        exact (List.nodup_cons.mp hnd).1 hp
      rw [hrest]
    · have hrq : r ≠ q := by
        intro h
        subst h
        exact (List.nodup_cons.mp hnd).1 hqrest
      have hr2 : ¬ ((fun p : ℕ × ℕ => p.2 == q.2) r) = true := by
        simp only [beq_iff_eq]
        intro h
        exact hrq (huniq r (List.mem_cons_self _ _) q
          (List.mem_cons_of_mem _ hqrest) h)
      have hstep : List.filter (fun p => p.2 == q.2) (r :: rest) =
          List.filter (fun p => p.2 == q.2) rest := by
        simp only [List.filter_cons]
        rw [if_neg hr2]
      rw [hstep]
      exact ih q hqrest
        (fun p hp p2 hp2 =>
          huniq p (List.mem_cons_of_mem _ hp) p2 (List.mem_cons_of_mem _ hp2))
        (List.nodup_cons.mp hnd).2

theorem getD_eq_of_getElem? (l : List String) (i : ℕ) (sw : String)
    (h : l[i]? = some sw) : l.getD i "" = sw := by
  rw [List.getD_eq_getElem?_getD, h]
  rfl

theorem blankFillPairs_snd_uniq (offset : ℕ) (tgtStoi : String → ℕ)
    (srcItos : List String)
    (hinj : ∀ w w2, tgtStoi w ≠ 0 → tgtStoi w = tgtStoi w2 → w = w2)
    (hnd : srcItos.Nodup) :
    ∀ p ∈ blankFillPairs offset tgtStoi srcItos,
    ∀ p2 ∈ blankFillPairs offset tgtStoi srcItos, p.2 = p2.2 → p = p2 := by
  intro p hp p2 hp2 h22
  rcases (mem_blankFillPairs offset tgtStoi srcItos p).mp hp with
    ⟨i, hi, hi0, hti, rfl⟩
  rcases (mem_blankFillPairs offset tgtStoi srcItos p2).mp hp2 with
    ⟨j, hj, hj0, htj, rfl⟩
  simp only at h22
  have hw : srcItos.getD i "" = srcItos.getD j "" := hinj _ _ hti h22
  have hgi : srcItos.getD i "" = srcItos[i] := by
    rw [List.getD_eq_getElem?_getD, List.getElem?_eq_getElem hi]
    rfl
  have hgj : srcItos.getD j "" = srcItos[j] := by
    rw [List.getD_eq_getElem?_getD, List.getElem?_eq_getElem hj]
    rfl
  have hij : i = j := by
    apply hnd.getElem_inj_iff.mp
    rw [← hgi, ← hgj]
    exact hw
  subst hij
  rw [h22]

theorem wTgtStoi_lt : ∀ w, wTgtStoi w < 5 := by
  intro w
  rw [wTgtStoi]
  split_ifs <;> omega

theorem wTgtStoi_inj :
    ∀ w w2, wTgtStoi w ≠ 0 → wTgtStoi w = wTgtStoi w2 → w = w2 := by
  intro w w2 h1 h2
  simp only [wTgtStoi] at h1 h2
  split_ifs at h1 h2
  all_goals first
  | omega
  | (subst_vars; rfl)

/--
C5: for every batch row r and example b, collapse_copy_scores routes the score
at extended column offset + i (dynamic id i >= 1 whose word has non-zero fixed
id ti) into column ti, adding it onto the existing score, and then floors the
dynamic slot at offset + i to 1e-10; dynamic slots whose word is absent from
the fixed vocabulary, and every column that is neither a filled fixed slot nor
a collapsed dynamic slot, keep their original scores.  The hypotheses state
standard properties of a torchtext vocabulary: stoi values are below the fixed
vocabulary size, distinct known words have distinct non-zero ids, and itos has
no duplicate entries.
-/
theorem C5_collapse_copy_scores (offset : ℕ) (tgtStoi : String → ℕ)
    (srcVocabs : ℕ → List String) (indices : ℕ → ℕ)
    (scores : ℕ → ℕ → ℕ → ℚ) (r b : ℕ)
    (hlt : ∀ w, tgtStoi w < offset)
    (hinj : ∀ w w2, tgtStoi w ≠ 0 → tgtStoi w = tgtStoi w2 → w = w2)
    (hnd : (srcVocabs (indices b)).Nodup) :
    (∀ (i : ℕ) (sw : String), (srcVocabs (indices b))[i]? = some sw → i ≠ 0 →
      (tgtStoi sw ≠ 0 →
        collapseCopyScores offset tgtStoi srcVocabs indices scores r b
            (tgtStoi sw) =
          scores r b (tgtStoi sw) + scores r b (offset + i) ∧
        collapseCopyScores offset tgtStoi srcVocabs indices scores r b
            (offset + i) = fillFloor) ∧
      (tgtStoi sw = 0 →
        collapseCopyScores offset tgtStoi srcVocabs indices scores r b
            (offset + i) = scores r b (offset + i))) ∧
    (∀ c : ℕ,
      c ∉ (blankFillPairs offset tgtStoi (srcVocabs (indices b))).map Prod.fst →
      c ∉ (blankFillPairs offset tgtStoi (srcVocabs (indices b))).map Prod.snd →
      collapseCopyScores offset tgtStoi srcVocabs indices scores r b c =
        scores r b c) := by
  have huntouched : ∀ c : ℕ,
      c ∉ (blankFillPairs offset tgtStoi (srcVocabs (indices b))).map Prod.fst →
      c ∉ (blankFillPairs offset tgtStoi (srcVocabs (indices b))).map Prod.snd →
      collapseCopyScores offset tgtStoi srcVocabs indices scores r b c =
        scores r b c := by
    intro c hcf hcs
    show collapseRow offset tgtStoi (srcVocabs (indices b))
      (fun c2 => scores r b c2) c = scores r b c
    rw [collapseRow, indexFill_apply, if_neg hcf, indexAddSelect_apply]
    have hemp : (blankFillPairs offset tgtStoi (srcVocabs (indices b))).filter
        (fun p => p.2 == c) = [] := by
      rw [List.filter_eq_nil_iff]
      intro p hp
      simp only [beq_iff_eq]
      intro h
      exact hcs (List.mem_map.mpr ⟨p, hp, h⟩)
    rw [hemp]
    simp
  refine ⟨?_, huntouched⟩
  intro i sw hget hi0
  have hilt : i < (srcVocabs (indices b)).length := (List.getElem?_eq_some.mp hget).1
  have hgd : (srcVocabs (indices b)).getD i "" = sw :=
    getD_eq_of_getElem? _ _ _ hget
  constructor
  · intro hti
    have hpmem : (offset + i, tgtStoi sw) ∈
        blankFillPairs offset tgtStoi (srcVocabs (indices b)) := by
      rw [mem_blankFillPairs]
      exact ⟨i, hilt, hi0, by rw [hgd]; exact hti, by rw [hgd]⟩
    constructor
    · show collapseRow offset tgtStoi (srcVocabs (indices b))
        (fun c2 => scores r b c2) (tgtStoi sw) =
        scores r b (tgtStoi sw) + scores r b (offset + i)
      rw [collapseRow, indexFill_apply]
      have hnotblank : tgtStoi sw ∉
          (blankFillPairs offset tgtStoi (srcVocabs (indices b))).map Prod.fst := by
        intro hmem
        rcases List.mem_map.mp hmem with ⟨p, hp, hfst⟩
        rcases (mem_blankFillPairs offset tgtStoi _ p).mp hp with
          ⟨j, hj, hj0, htj, rfl⟩
        simp only at hfst
        have := hlt sw
        omega
      rw [if_neg hnotblank, indexAddSelect_apply]
      have hfil := filter_snd_eq_single
        (blankFillPairs offset tgtStoi (srcVocabs (indices b)))
        (offset + i, tgtStoi sw) hpmem
        (blankFillPairs_snd_uniq offset tgtStoi _ hinj hnd)
        (blankFillPairs_nodup offset tgtStoi _)
      have hfil2 : (blankFillPairs offset tgtStoi (srcVocabs (indices b))).filter
          (fun p => p.2 == tgtStoi sw) = [(offset + i, tgtStoi sw)] := by
        simpa using hfil
      rw [hfil2]
      simp
    · show collapseRow offset tgtStoi (srcVocabs (indices b))
        (fun c2 => scores r b c2) (offset + i) = fillFloor
      rw [collapseRow, indexFill_apply,
        if_pos (List.mem_map.mpr ⟨_, hpmem, rfl⟩)]
  · intro hti0
    apply huntouched
    · intro hmem
      rcases List.mem_map.mp hmem with ⟨p, hp, hfst⟩
      rcases (mem_blankFillPairs offset tgtStoi _ p).mp hp with
        ⟨j, hj, hj0, htj, rfl⟩
      simp only at hfst
      have hij : j = i := by omega
      subst hij
      rw [hgd] at htj
      exact htj hti0
    · intro hmem
      rcases List.mem_map.mp hmem with ⟨p, hp, hsnd⟩
      rcases (mem_blankFillPairs offset tgtStoi _ p).mp hp with
        ⟨j, hj, hj0, htj, rfl⟩
      simp only at hsnd
      have := hlt ((srcVocabs (indices b)).getD j "")
      omega

/-- Witness for C5_collapse_copy_scores on a concrete batch: example 0's
dynamic vocabulary is [unk, a, z] with offset 5; the word a has fixed id 2, so
column 2 receives column 6's score and column 6 is floored; the word z is
unknown in the fixed vocabulary, so column 7 is untouched. -/
theorem C5_collapse_copy_scores_witness :
    (collapseCopyScores 5 wTgtStoi wSrcVocabs (fun n => n) wScores 0 0
        (wTgtStoi "a") =
      wScores 0 0 (wTgtStoi "a") + wScores 0 0 (5 + 1)) ∧
    (collapseCopyScores 5 wTgtStoi wSrcVocabs (fun n => n) wScores 0 0 (5 + 1) =
      fillFloor) ∧
    (collapseCopyScores 5 wTgtStoi wSrcVocabs (fun n => n) wScores 0 0 (5 + 2) =
      wScores 0 0 (5 + 2)) :=
  have h := C5_collapse_copy_scores 5 wTgtStoi wSrcVocabs (fun n => n) wScores 0 0
    wTgtStoi_lt wTgtStoi_inj (by decide)
  ⟨((h.1 1 "a" (by decide) (by decide)).1 (by decide)).1,
   ((h.1 1 "a" (by decide) (by decide)).1 (by decide)).2,
   (h.1 2 "z" (by decide) (by decide)).2 (by decide)⟩

theorem map_eq_self_of {α : Type} (l : List α) (f : α → α)
    (h : ∀ x ∈ l, f x = x) : l.map f = l := by
  induction l with
  | nil => rfl
  | cons a l ih =>
    rw [List.map_cons, h a (List.mem_cons_self _ _),
      ih (fun x hx => h x (List.mem_cons_of_mem _ hx))]

theorem filter_replicate_neg {α : Type} {p : α → Bool} {a : α}
    (h : p a = false) (n : ℕ) : (List.replicate n a).filter p = [] := by
  induction n with
  | zero => rfl
  | succ n ih => simp [List.replicate_succ, List.filter_cons, h, ih]

theorem filter_optTok_init (cfg : PadCfg) :
    (optTok cfg.initToken).filter (keepTok cfg) = [] := by
  cases h : cfg.initToken with
  | none => rfl
  | some s => simp [optTok, keepTok, h, List.filter_cons]

theorem filter_optTok_eos (cfg : PadCfg) :
    (optTok cfg.eosToken).filter (keepTok cfg) = [] := by
  cases h : cfg.eosToken with
  | none => rfl
  | some s => simp [optTok, keepTok, h, List.filter_cons]

theorem filter_keepTok_clean (cfg : PadCfg) (x : List String)
    (hclean : ∀ tok ∈ x, tok ≠ cfg.padToken ∧ some tok ≠ cfg.initToken ∧
      some tok ≠ cfg.eosToken) : x.filter (keepTok cfg) = x := by
  apply List.filter_eq_self.mpr
  intro a ha
  rcases hclean a ha with ⟨h1, h2, h3⟩
  simp [keepTok, h1, h2, h3]

theorem stripTokens_boxPadOne (cfg : PadCfg) (maxLen : ℕ) (x : List String)
    (hx : x.length ≤ maxLen)
    (hclean : ∀ tok ∈ x, tok ≠ cfg.padToken ∧ some tok ≠ cfg.initToken ∧
      some tok ≠ cfg.eosToken) :
    stripTokens cfg (boxPadOne cfg maxLen x) = x := by
  have htake : x.take maxLen = x := List.take_of_length_le hx
  have hpadf : (List.replicate (maxLen - x.length) cfg.padToken).filter
      (keepTok cfg) = [] := filter_replicate_neg (by simp [keepTok]) _
  rw [boxPadOne]
  split_ifs with hpf
  · rw [stripTokens, List.filter_append, List.filter_append,
      List.filter_append, hpadf, filter_optTok_init, filter_optTok_eos,
      htake, filter_keepTok_clean cfg x hclean]
    simp
  · rw [stripTokens, List.filter_append, List.filter_append,
      List.filter_append, hpadf, filter_optTok_init, filter_optTok_eos,
      htake, filter_keepTok_clean cfg x hclean]
    simp

theorem charKeep_nil (cfg : PadCfg) : charKeep cfg ([] : List String) = false := by
  simp [charKeep]

theorem stripCharWord_padded (cfg : PadCfg) (K : ℕ) (w : List String)
    (hw : ∀ c ∈ w, c ≠ cfg.padToken) :
    stripCharWord cfg (w ++ List.replicate (K - w.length) cfg.padToken) = w := by
  rw [stripCharWord, List.filter_append, filter_replicate_neg (by simp)]
  rw [List.filter_eq_self.mpr (fun c hc => by simp [hw c hc])]
  simp

theorem map_strip_padChar (cfg : PadCfg) (K : ℕ) (x : List (List String))
    (hx : ∀ w ∈ x, ∀ c ∈ w, c ≠ cfg.padToken) :
    (padChar cfg.padToken K x).map (stripCharWord cfg) = x := by
  rw [padChar, List.map_map]
  apply map_eq_self_of
  intro w hw
  exact stripCharWord_padded cfg K w (hx w hw)

theorem strip_pad_section (cfg : PadCfg) (K n : ℕ) :
    ((padChar cfg.padToken K (List.replicate n [cfg.padToken])).map
      (stripCharWord cfg)).filter (charKeep cfg) = [] := by
  have h1 : stripCharWord cfg
      ([cfg.padToken] ++ List.replicate (K - 1) cfg.padToken) = [] := by
    rw [stripCharWord, List.filter_append, filter_replicate_neg (by simp)]
    simp [List.filter_cons]
  rw [padChar, List.map_replicate, List.map_replicate]
  have h2 : stripCharWord cfg
      ([cfg.padToken] ++
        List.replicate (K - ([cfg.padToken] : List String).length)
          cfg.padToken) = [] := by
    simpa using h1
  rw [h2]
  exact filter_replicate_neg (charKeep_nil cfg) n

theorem strip_boundary_word (cfg : PadCfg) (K : ℕ) (s : String) :
    ((padChar cfg.padToken K [[s]]).map (stripCharWord cfg)) = [[]] ∨
    ((padChar cfg.padToken K [[s]]).map (stripCharWord cfg)) = [[s]] := by
  by_cases hs : s = cfg.padToken
  · left
    subst hs
    rw [padChar]
    simp only [List.map_cons, List.map_nil]
    congr 1
    rw [stripCharWord, List.filter_append, filter_replicate_neg (by simp)]
    simp [List.filter_cons]
  · right
    rw [padChar]
    simp only [List.map_cons, List.map_nil]
    congr 1
    rw [stripCharWord, List.filter_append, filter_replicate_neg (by simp)]
    simp [List.filter_cons, hs]

theorem strip_init_section (cfg : PadCfg) (K : ℕ) :
    ((padChar cfg.padToken K ((optTok cfg.initToken).map (fun s => [s]))).map
      (stripCharWord cfg)).filter (charKeep cfg) = [] := by
  cases h : cfg.initToken with
  | none => simp [optTok, padChar]
  | some s =>
    simp only [h, optTok, List.map_cons, List.map_nil]
    rcases strip_boundary_word cfg K s with h2 | h2
    · rw [h2]
      simp [List.filter_cons, charKeep_nil cfg]
    · rw [h2]
      have : charKeep cfg [s] = false := by
        simp [charKeep, h]
      simp [List.filter_cons, this]

theorem strip_eos_section (cfg : PadCfg) (K : ℕ) :
    ((padChar cfg.padToken K ((optTok cfg.eosToken).map (fun s => [s]))).map
      (stripCharWord cfg)).filter (charKeep cfg) = [] := by
  cases h : cfg.eosToken with
  | none => simp [optTok, padChar]
  | some s =>
    simp only [h, optTok, List.map_cons, List.map_nil]
    rcases strip_boundary_word cfg K s with h2 | h2
    · rw [h2]
      simp [List.filter_cons, charKeep_nil cfg]
    · rw [h2]
      have : charKeep cfg [s] = false := by
        simp [charKeep, h]
      simp [List.filter_cons, this]

theorem strip_content_section (cfg : PadCfg) (K : ℕ) (x : List (List String))
    (hclean : ∀ w ∈ x, w ≠ [] ∧ (∀ c ∈ w, c ≠ cfg.padToken) ∧
      (∀ s, cfg.initToken = some s → w ≠ [s]) ∧
      (∀ s, cfg.eosToken = some s → w ≠ [s])) :
    ((padChar cfg.padToken K x).map (stripCharWord cfg)).filter
      (charKeep cfg) = x := by
  rw [map_strip_padChar cfg K x (fun w hw => (hclean w hw).2.1)]
  apply List.filter_eq_self.mpr
  intro w hw
  rcases hclean w hw with ⟨h1, _, h3, h4⟩
  have hne : w.isEmpty = false := by
    cases w with
    | nil => exact absurd rfl h1
    | cons a l => rfl
  rw [charKeep, hne]
  cases hinit : cfg.initToken with
  | none =>
    cases heos : cfg.eosToken with
    | none => simp
    | some s2 => simp [h4 s2 heos]
  | some s =>
    cases heos : cfg.eosToken with
    | none => simp [h3 s hinit]
    | some s2 => simp [h3 s hinit, h4 s2 heos]

theorem stripCharTokens_boxCharPadOne (cfg : PadCfg) (maxLen K : ℕ)
    (x : List (List String)) (hx : x.length ≤ maxLen)
    (hclean : ∀ w ∈ x, w ≠ [] ∧ (∀ c ∈ w, c ≠ cfg.padToken) ∧
      (∀ s, cfg.initToken = some s → w ≠ [s]) ∧
      (∀ s, cfg.eosToken = some s → w ≠ [s])) :
    stripCharTokens cfg (boxCharPadOne cfg maxLen K x) = x := by
  have hcc : charContent cfg maxLen x = x := by
    rw [charContent]
    split_ifs
    · have h0 : x.length - maxLen = 0 := by omega
      rw [h0, List.drop_zero]
    · exact List.take_of_length_le hx
  rw [stripCharTokens, boxCharPadOne]
  split_ifs with hpf
  · rw [hcc, List.map_append, List.map_append, List.map_append,
      List.filter_append, List.filter_append, List.filter_append,
      strip_pad_section, strip_init_section, strip_eos_section,
      strip_content_section cfg K x hclean]
    simp
  · rw [hcc, List.map_append, List.map_append, List.map_append,
      List.filter_append, List.filter_append, List.filter_append,
      strip_pad_section, strip_init_section, strip_eos_section,
      strip_content_section cfg K x hclean]
    simp

/--
C7 (amended): pad followed by removing the pad tokens and the begin/end
boundary tokens reproduces the original token sequences, for the word field
(BoxField.pad) and for the nested character field (BoxCharField.pad), for
every batch whose sequences contain no pad or boundary token themselves (and,
for the character field, no empty word, no pad character-token inside a word
and no word equal to a boundary singleton), provided no fixed length is
configured.
-/
theorem C7_pad_round_trip (cfgW cfgC : PadCfg) (mb : List (List String))
    (mbc : List (List (List String)))
    (hfixW : cfgW.fixLength = none) (hfixC : cfgC.fixLength = none)
    (hclean : ∀ x ∈ mb, ∀ tok ∈ x, tok ≠ cfgW.padToken ∧
      some tok ≠ cfgW.initToken ∧ some tok ≠ cfgW.eosToken)
    (hcleanc : ∀ x ∈ mbc, ∀ w ∈ x, w ≠ [] ∧ (∀ c ∈ w, c ≠ cfgC.padToken) ∧
      (∀ s, cfgC.initToken = some s → w ≠ [s]) ∧
      (∀ s, cfgC.eosToken = some s → w ≠ [s])) :
    (boxPad cfgW mb).map (stripTokens cfgW) = mb ∧
    (boxCharPad cfgC mbc).map (stripCharTokens cfgC) = mbc := by
  constructor
  · rw [boxPad, List.map_map]
    apply map_eq_self_of
    intro x hx
    apply stripTokens_boxPadOne
    · have hmem : x.length ∈ mb.map List.length :=
        List.mem_map_of_mem List.length hx
      have := le_foldr_max _ _ hmem
      simp only [batchMaxLen, hfixW]
      exact this
    · exact hclean x hx
  · rw [boxCharPad, List.map_map]
    apply map_eq_self_of
    intro x hx
    apply stripCharTokens_boxCharPadOne
    · have hmem : x.length ∈ mbc.map List.length :=
        List.mem_map_of_mem List.length hx
      have := le_foldr_max _ _ hmem
      simp only [batchMaxLen, hfixC]
      exact this
    · exact hcleanc x hx

/-- Witness for C7_pad_round_trip with the repo's tgt2 word-field
configuration and src2_char character-field configuration on a concrete
two-example batch. -/
theorem C7_pad_round_trip_witness :
    (boxPad wordCfg [ [ "a", "b" ], [ "c" ] ]).map (stripTokens wordCfg) =
      [ [ "a", "b" ], [ "c" ] ] ∧
    (boxCharPad charCfg [ [ [ "a" ], [ "b", "c" ] ] ]).map
      (stripCharTokens charCfg) = [ [ [ "a" ], [ "b", "c" ] ] ] :=
  C7_pad_round_trip wordCfg charCfg [ [ "a", "b" ], [ "c" ] ]
    [ [ [ "a" ], [ "b", "c" ] ] ] rfl rfl (by decide) (by decide)

/--
C7 counterexample: a batch whose sequence is the single literal pad token is
not reproduced: pad followed by strip yields the empty sequence, so the
universally quantified round-trip claim fails.
-/
theorem C7_counterexample :
    (boxPad wordCfg [ [ PAD_WORD ] ]).map (stripTokens wordCfg) = [ [] ] ∧
    ([ [ PAD_WORD ] ] : List (List String)) ≠ [ [] ] := by decide

theorem drivePass_spec (n q : ℕ) (hq : 1 ≤ q) (a : RdState)
    (hhi : a.lineIndex ≤ (n : ℤ) - 1)
    (heof : a.eof = true → a.lineIndex = (n : ℤ) - 1) :
    a.lineIndex ≤ (drivePass n q a).lineIndex ∧
    (drivePass n q a).lineIndex ≤ (n : ℤ) - 1 ∧
    ((drivePass n q a).eof = true →
      (drivePass n q a).lineIndex = (n : ℤ) - 1) ∧
    (a.eof = true → (drivePass n q a).eof = true) ∧
    ((drivePass n q a).eof = false →
      (drivePass n q a).lineIndex = a.lineIndex + (q : ℤ)) := by
  rw [drivePass]
  split_ifs with h
  · exact ⟨hhi, le_refl _, by simp, by simp, by simp⟩
  · have hef : a.eof = false := by
      cases hae : a.eof
      · rfl
      · exfalso
        have := heof hae
        omega
    simp only [hef]
    exact ⟨by omega, by omega, by simp, by simp, by simp⟩

theorem lockstepRound_ok (n m q : ℕ) (hq : 1 ≤ q) (hnm : n ≤ m)
    (st : RdState × RdState) (hinv : lockstepInv n st) :
    ∃ st2, lockstepRound n m q st = .ok st2 ∧ lockstepInv n st2 ∧
      st.1.lineIndex ≤ st2.1.lineIndex ∧
      (st2.1.eof = false → st2.1.lineIndex = st.1.lineIndex + (q : ℤ)) ∧
      (st.1.eof = true → st2.1.eof = true) := by
  obtain ⟨hbl, hbe, hlo, hhi, heof⟩ := hinv
  obtain ⟨hmono, hhi2, heof2, hkeep, hprog⟩ :=
    drivePass_spec n q hq st.1 hhi heof
  have hnoerr : ¬ (st.2.lineIndex < (drivePass n q st.1).lineIndex ∧
      (m : ℤ) ≤ (drivePass n q st.1).lineIndex) := by
    intro ⟨_, h2⟩
    omega
  refine ⟨(drivePass n q st.1,
    ⟨max st.2.lineIndex (drivePass n q st.1).lineIndex,
      if (drivePass n q st.1).eof then true else st.2.eof⟩), ?_, ?_, hmono, hprog, hkeep⟩
  · rw [lockstepRound, assocPass, if_neg hnoerr]
  · refine ⟨?_, ?_, by dsimp only; omega, by dsimp only; exact hhi2,
      by dsimp only; exact heof2⟩
    · dsimp only
      omega
    · dsimp only
      cases hde : (drivePass n q st.1).eof
      · rw [if_neg (by simp [hde])]
        rw [hbe]
        cases hae : st.1.eof
        · rfl
        · exact absurd (hkeep hae) (by simp [hde])
      · rw [if_pos (by simp [hde])]

theorem runRounds_ok (n m : ℕ) (hnm : n ≤ m) (qs : List ℕ) :
    ∀ st, (∀ q ∈ qs, 1 ≤ q) → lockstepInv n st →
    ∃ a b, runRounds n m qs st = .ok (a, b) ∧ lockstepInv n (a, b) ∧
      (st.1.eof = true → a.eof = true) ∧
      (a.eof = true ∨ st.1.lineIndex + (qs.length : ℤ) ≤ a.lineIndex) := by
  induction qs with
  | nil =>
    intro st _ hinv
    exact ⟨st.1, st.2, rfl, hinv, fun h => h, Or.inr (by simp)⟩
  | cons q rest ih =>
    intro st hq hinv
    obtain ⟨st2, hrun, hinv2, hmono, hprog, hkeep⟩ :=
      lockstepRound_ok n m q (hq q (List.mem_cons_self _ _)) hnm st hinv
    obtain ⟨a, b, hrun2, hinv3, hkeep2, hfin⟩ :=
      ih st2 (fun q2 hq2 => hq q2 (List.mem_cons_of_mem _ hq2)) hinv2
    refine ⟨a, b, ?_, hinv3, fun h => hkeep2 (hkeep h), ?_⟩
    · rw [runRounds, hrun]
      exact hrun2
    · rcases hfin with h | h
      · exact Or.inl h
      · cases hde : st2.1.eof
        · right
          have hq1 : 1 ≤ q := hq q (List.mem_cons_self _ _)
          have := hprog hde
          simp only [List.length_cons]
          push_cast
          omega
        · exact Or.inl (hkeep2 hde)


theorem lockstepRoundB (n m q : ℕ) (hq : 1 ≤ q) (hmn : m < n)
    (st : RdState × RdState) (hinv : lockstepInvB m st) :
    lockstepRound n m q st = .error mismatchMsg ∨
    (∃ st2, lockstepRound n m q st = .ok st2 ∧ lockstepInvB m st2 ∧
      st.1.lineIndex + 1 ≤ st2.1.lineIndex) := by
  obtain ⟨hbl, hae, hbe, hlo, hhi⟩ := hinv
  by_cases h : (n : ℤ) - (st.1.lineIndex + 1) < (q : ℤ)
  · left
    have ha2 : drivePass n q st.1 = ⟨(n : ℤ) - 1, true⟩ := by
      rw [drivePass, if_pos h]
    have hc : st.2.lineIndex < ((⟨(n : ℤ) - 1, true⟩ : RdState)).lineIndex ∧
        (m : ℤ) ≤ ((⟨(n : ℤ) - 1, true⟩ : RdState)).lineIndex := by
      constructor
      · simp only
        omega
      · simp only
        omega
    have herr : assocPass m (drivePass n q st.1) st.2 = .error mismatchMsg := by
      rw [ha2, assocPass, if_pos hc]
    rw [lockstepRound, herr]
  · have ha2 : drivePass n q st.1 = ⟨st.1.lineIndex + (q : ℤ), st.1.eof⟩ := by
      rw [drivePass, if_neg h]
    by_cases h2 : (m : ℤ) ≤ st.1.lineIndex + (q : ℤ)
    · left
      have hc : st.2.lineIndex <
          ((⟨st.1.lineIndex + (q : ℤ), st.1.eof⟩ : RdState)).lineIndex ∧
          (m : ℤ) ≤ ((⟨st.1.lineIndex + (q : ℤ), st.1.eof⟩ : RdState)).lineIndex := by
        constructor
        · simp only
          omega
        · simp only
          exact h2
      have herr : assocPass m (drivePass n q st.1) st.2 = .error mismatchMsg := by
        rw [ha2, assocPass, if_pos hc]
      rw [lockstepRound, herr]
    · right
      have hcneg : ¬ (st.2.lineIndex <
          ((⟨st.1.lineIndex + (q : ℤ), st.1.eof⟩ : RdState)).lineIndex ∧
          (m : ℤ) ≤ ((⟨st.1.lineIndex + (q : ℤ), st.1.eof⟩ : RdState)).lineIndex) := by
        intro hcc
        exact h2 hcc.2
      have hok : assocPass m (drivePass n q st.1) st.2 =
          .ok ⟨max st.2.lineIndex (st.1.lineIndex + (q : ℤ)),
            if st.1.eof = true then true else st.2.eof⟩ := by
        rw [ha2, assocPass, if_neg hcneg]
      refine ⟨(⟨st.1.lineIndex + (q : ℤ), st.1.eof⟩,
        ⟨max st.2.lineIndex (st.1.lineIndex + (q : ℤ)),
          if st.1.eof = true then true else st.2.eof⟩), ?_, ?_, ?_⟩
      · rw [lockstepRound, hok, ha2]
      · refine ⟨?_, ?_, ?_, ?_, ?_⟩
        · simp only
          omega
        · simp only
          exact hae
        · simp only
          rw [hae, hbe]
          rfl
        · simp only
          omega
        · simp only
          omega
      · simp only
        omega

theorem runRoundsB (n m : ℕ) (hmn : m < n) (qs : List ℕ) :
    ∀ st, (∀ q ∈ qs, 1 ≤ q) → lockstepInvB m st →
      runRounds n m qs st = .error mismatchMsg ∨
      (∃ a b, runRounds n m qs st = .ok (a, b) ∧ lockstepInvB m (a, b) ∧
        st.1.lineIndex + (qs.length : ℤ) ≤ a.lineIndex) := by
  induction qs with
  | nil =>
    intro st _ hinv
    exact Or.inr ⟨st.1, st.2, rfl, hinv, by simp⟩
  | cons q rest ih =>
    intro st hq hinv
    rcases lockstepRoundB n m q (hq q (List.mem_cons_self _ _)) hmn st hinv with
      herr | ⟨st2, hok, hinv2, hprog⟩
    · left
      rw [runRounds, herr]
    · rcases ih st2 (fun q2 hq2 => hq q2 (List.mem_cons_of_mem _ hq2)) hinv2 with
        herr2 | ⟨a, b, hok2, hinv3, hprog2⟩
      · left
        rw [runRounds, hok]
        exact herr2
      · right
        refine ⟨a, b, ?_, hinv3, ?_⟩
        · rw [runRounds, hok]
          exact hok2
        · simp only [List.length_cons]
          push_cast
          omega

/--
C8 (amended): for two paired sharded corpus readers (one driving, one lockstep
via assoc_iter), over any shard schedule of at least one line per pass: if both
corpora have equal line counts, full iteration terminates without error with
both readers' end-of-file flags set simultaneously; if the lockstep corpus is
SHORTER than the driver's, the corpus-length-mismatch error is raised before
the lockstep reader silently overruns; but if the lockstep corpus is LONGER,
no error is raised: iteration ends with both eof flags set while the lockstep
corpus still has unread lines.
-/
theorem C8_lockstep_readers (n m : ℕ) (qs : List ℕ) (hq : ∀ q ∈ qs, 1 ≤ q) :
    (m = n →
      ∃ a b, runRounds n m qs (initRd, initRd) = .ok (a, b) ∧
        b.eof = a.eof ∧ b.lineIndex = a.lineIndex ∧
        ((n : ℤ) + 1 ≤ qs.length → a.eof = true ∧ b.eof = true)) ∧
    (m < n → m + 1 ≤ qs.length →
      runRounds n m qs (initRd, initRd) = .error mismatchMsg) ∧
    (n < m →
      ∃ a b, runRounds n m qs (initRd, initRd) = .ok (a, b) ∧
        b.eof = a.eof ∧ b.lineIndex = a.lineIndex ∧
        b.lineIndex ≤ (n : ℤ) - 1 ∧
        ((n : ℤ) + 1 ≤ qs.length → a.eof = true ∧ b.eof = true)) := by
  have hinv0 : lockstepInv n (initRd, initRd) := by
    refine ⟨rfl, rfl, le_refl _, ?_, ?_⟩
    · dsimp only [initRd]
      omega
    · intro h
      dsimp only [initRd] at h
      cases h
  refine ⟨?_, ?_, ?_⟩
  · intro hmn
    obtain ⟨a, b, hrun, hinv, _, hfin⟩ :=
      runRounds_ok n m (by omega) qs (initRd, initRd) hq hinv0
    refine ⟨a, b, hrun, hinv.2.1, hinv.1, ?_⟩
    intro hlen
    rcases hfin with he | hle
    · exact ⟨he, by rw [hinv.2.1, he]⟩
    · exfalso
      have hhi : a.lineIndex ≤ (n : ℤ) - 1 := hinv.2.2.2.1
      have hle2 : (-1 : ℤ) + (qs.length : ℤ) ≤ a.lineIndex := hle
      omega
  · intro hmn hlen
    have hinvB0 : lockstepInvB m (initRd, initRd) := by
      refine ⟨rfl, rfl, rfl, le_refl _, ?_⟩
      dsimp only [initRd]
      omega
    rcases runRoundsB n m hmn qs (initRd, initRd) hq hinvB0 with
      herr | ⟨a, b, hok, hinvB, hprog⟩
    · exact herr
    · exfalso
      have hhi : a.lineIndex ≤ (m : ℤ) - 1 := hinvB.2.2.2.2
      have hp2 : (-1 : ℤ) + (qs.length : ℤ) ≤ a.lineIndex := hprog
      omega
  · intro hmn
    obtain ⟨a, b, hrun, hinv, _, hfin⟩ :=
      runRounds_ok n m (by omega) qs (initRd, initRd) hq hinv0
    refine ⟨a, b, hrun, hinv.2.1, hinv.1, ?_, ?_⟩
    · rw [hinv.1]
      exact hinv.2.2.2.1
    · intro hlen
      rcases hfin with he | hle
      · exact ⟨he, by rw [hinv.2.1, he]⟩
      · exfalso
        have hhi : a.lineIndex ≤ (n : ℤ) - 1 := hinv.2.2.2.1
        have hle2 : (-1 : ℤ) + (qs.length : ℤ) ≤ a.lineIndex := hle
        omega

/-- Witness for C8_lockstep_readers: equal one-line corpora over a two-pass
schedule finish with both eof flags set. -/
theorem C8_lockstep_readers_witness :
    ∃ a b, runRounds 1 1 [1, 1] (initRd, initRd) = .ok (a, b) ∧
      b.eof = a.eof ∧ b.lineIndex = a.lineIndex ∧
      (((1 : ℕ) : ℤ) + 1 ≤ ([1, 1] : List ℕ).length → a.eof = true ∧ b.eof = true) :=
  (C8_lockstep_readers 1 1 [1, 1] (by decide)).1 rfl

/--
C8 counterexample: a one-line driving corpus paired with a TWO-line lockstep
corpus (unequal counts) finishes without any error: both eof flags are set,
yet the lockstep reader has consumed only line 0 of its two lines.  The
mismatch error is raised only when the lockstep corpus is the shorter one.
-/
theorem C8_counterexample :
    runRounds 1 2 [1, 1] (initRd, initRd) =
      .ok (⟨0, true⟩, ⟨0, true⟩) ∧ (0 : ℤ) < (2 : ℤ) - 1 := by
  constructor
  · rfl
  · norm_num
